import Mathlib

/-!
Verification of the FIL (forest inference library) CPU inference kernel and its
runtime dispatch layer.

Embedded source files:
* `cpp/include/cuml/experimental/fil/detail/infer_kernel/cpu.hpp` (`infer_kernel_cpu`)
* `cpp/include/cuml/experimental/fil/detail/infer.hpp` (`infer`, the dispatch operation)

Modelling conventions:
* `io_type` / `threshold_type` values are embedded as `ℚ` so that arithmetic is exact;
  `index_type` values are embedded as `ℕ`.
* Host buffers are embedded as total functions `ℕ → ℚ`; a store is `wset`.  Out-of-bounds
  C++ accesses are undefined behaviour, so nothing is claimed about indices the kernel
  never touches.
* `evaluate_tree` (declared in `evaluate_tree.hpp`, which is not among the available
  sources) is abstracted as a function parameter: for scalar leaves it yields the leaf's
  threshold-type value, for vector leaves the leaf's vector-output index.  The
  `has_nonlocal_categories` template branch only changes which external evaluator
  overload is invoked with which external data; both are absorbed into the abstract
  evaluator, which is applied to the row pointer `input + row_index * col_count`
  exactly as in the source.
* The compile-time `if constexpr (has_vector_leaves)` split (driven by the
  `vector_output_t` template parameter being `std::nullptr_t` or a pointer) is embedded
  as the sum type `LeafModel`.
-/

namespace FIL

/-- Store `v` at index `i` of a flat buffer modelled as a total function. -/
def wset (w : ℕ → ℚ) (i : ℕ) (v : ℚ) : ℕ → ℚ :=
  fun j => if j = i then v else w j

/-- Read-modify-write `buf[i] += v`, as performed by the accumulation statements of
`infer_kernel_cpu`. -/
def accum (w : ℕ → ℚ) (i : ℕ) (v : ℚ) : ℕ → ℚ :=
  wset w i (w i + v)

/-- Modelled from the spec: `raft_proto::ceildiv` (header `raft_proto/ceildiv.hpp` is not
among the available sources).  Per spec §4.2 the task grid uses
`task_count = ceil(tree_count/grove_size) * ceil(row_count/chunk_size)`, so `ceildiv`
is the ceiling of the natural division. -/
def ceildiv (a b : ℕ) : ℕ := (a + b - 1) / b

/-- Leaf handling of a forest, mirroring the `vector_output_t` template parameter of
`infer_kernel_cpu`: `scalar` for `std::nullptr_t` (the tree evaluator returns a
threshold-type leaf value), `vector` for a non-null vector-output table
(`vector_output_p`), where the tree evaluator returns a vector-output index. -/
inductive LeafModel where
  | scalar (eval : ℕ → (ℕ → ℚ) → ℚ)
  | vector (eval : ℕ → (ℕ → ℚ) → ℕ) (vector_output_p : ℕ → ℚ)

/-- Arguments of `infer_kernel_cpu` (forest, input buffer and shape parameters). -/
structure KernelArgs where
  leaf : LeafModel
  input : ℕ → ℚ
  row_count : ℕ
  col_count : ℕ
  num_outputs : ℕ
  chunk_size : ℕ
  grove_size : ℕ
  tree_count : ℕ

/-- Number of groves: `raft_proto::ceildiv(num_tree, grove_size)`. -/
def numGrove (p : KernelArgs) : ℕ := ceildiv p.tree_count p.grove_size

/-- Number of chunks: `raft_proto::ceildiv(row_count, chunk_size)`. -/
def numChunk (p : KernelArgs) : ℕ := ceildiv p.row_count p.chunk_size

/-- Number of phase-1 tasks: `num_grove * num_chunk`. -/
def taskCount (p : KernelArgs) : ℕ := numGrove p * numChunk p

/-- Grove index of a task: `task_index / num_chunk`. -/
def groveOf (p : KernelArgs) (task_index : ℕ) : ℕ := task_index / numChunk p

/-- Chunk index of a task: `task_index % num_chunk`. -/
def chunkOf (p : KernelArgs) (task_index : ℕ) : ℕ := task_index % numChunk p

/-- Flat workspace index of cell (row, class, grove):
`row * num_outputs * num_grove + class * num_grove + grove`. -/
def cellIdx (no ng row c g : ℕ) : ℕ := row * no * ng + c * ng + g

/-- Row accessor handed to the tree evaluator: the pointer `input + row * col_count`. -/
def rowData (input : ℕ → ℚ) (col_count row : ℕ) : ℕ → ℚ :=
  fun c => input (row * col_count + c)

/-- Tree indices of grove `g`: `[g * grove_size, min(g * grove_size + grove_size, num_tree))`. -/
def groveTrees (p : KernelArgs) (g : ℕ) : List ℕ :=
  List.range' (g * p.grove_size)
    (min (g * p.grove_size + p.grove_size) p.tree_count - g * p.grove_size)

/-- Row indices of chunk `k`: `[k * chunk_size, min(k * chunk_size + chunk_size, row_count))`. -/
def chunkRows (p : KernelArgs) (k : ℕ) : List ℕ :=
  List.range' (k * p.chunk_size)
    (min (k * p.chunk_size + p.chunk_size) p.row_count - k * p.chunk_size)

/-- Rows processed by a task (its chunk). -/
def taskRows (p : KernelArgs) (task_index : ℕ) : List ℕ := chunkRows p (chunkOf p task_index)

/-- Trees processed by a task (its grove). -/
def taskTrees (p : KernelArgs) (task_index : ℕ) : List ℕ := groveTrees p (groveOf p task_index)

/-- Body of the innermost phase-1 loop of `infer_kernel_cpu` for one (row, tree) pair:
evaluate the tree on the row, then either accumulate each entry of the leaf's output
vector into `workspace[row, class, grove]` for every class (vector leaves), or
accumulate the scalar leaf value into `workspace[row, tree_index % num_outputs, grove]`. -/
def treeStep (p : KernelArgs) (g row : ℕ) (w : ℕ → ℚ) (t : ℕ) : ℕ → ℚ :=
  match p.leaf with
  | .scalar eval =>
      accum w (cellIdx p.num_outputs (numGrove p) row (t % p.num_outputs) g)
        (eval t (rowData p.input p.col_count row))
  | .vector eval vop =>
      let tree_output := eval t (rowData p.input p.col_count row)
      (List.range p.num_outputs).foldl
        (fun w c =>
          accum w (cellIdx p.num_outputs (numGrove p) row c g)
            (vop (tree_output * p.num_outputs + c))) w

/-- One phase-1 task of `infer_kernel_cpu`: iterate over the rows of the task's chunk and,
per row, over the trees of the task's grove. -/
def taskStep (p : KernelArgs) (w : ℕ → ℚ) (task_index : ℕ) : ℕ → ℚ :=
  (taskRows p task_index).foldl
    (fun w row => (taskTrees p task_index).foldl (treeStep p (groveOf p task_index) row) w) w

/-- Phase 1 of `infer_kernel_cpu`: starting from the zero-initialised workspace
`std::vector<output_t>(row_count * num_outputs * num_grove, output_t{})`, run every task.
The OpenMP `parallel for` runs the tasks in some order; as their write sets are disjoint
(the accumulation invariant proved below), the sequential in-order fold embeds it. -/
def phase1 (p : KernelArgs) : ℕ → ℚ :=
  (List.range (taskCount p)).foldl (taskStep p) (fun _ => 0)

/-- Record of one invocation `postproc(workspace + row*num_outputs*num_grove, num_outputs,
output + row*num_outputs, num_grove)` of the postprocessor by `infer_kernel_cpu`:
the first pointer argument (as an accessor relative to its base), the `num_outputs`
argument, the offset of the output pointer, and the final `num_grove` argument. -/
structure PPCall where
  vals : ℕ → ℚ
  out_count : ℕ
  out_base : ℕ
  stride : ℕ

/-- Modelled from the spec: the postprocessor callable (header `postprocessor.hpp` is not
among the available sources).  Per spec §6 it has the fixed shape
`(raw_aggregates_ptr, num_outputs, output_ptr, stride/denominator) -> void` and writes the
row's `num_outputs` final values through `output_ptr`; it is embedded as a pure function
from the first, second and fourth arguments to the written values. -/
def PostprocFn : Type := (ℕ → ℚ) → ℕ → ℕ → ℕ → ℚ

/-- State of phase 2 of `infer_kernel_cpu`: the workspace, the output buffer, and the
trace of postprocessor invocations made so far. -/
structure Phase2State where
  w : ℕ → ℚ
  out : ℕ → ℚ
  calls : List PPCall

/-- Reduction of one class of one row in phase 2:
`workspace[grove_offset] = accumulate(begin+grove_offset, begin+grove_offset+num_grove, 0)`. -/
def reduceRowClass (no ng row : ℕ) (w : ℕ → ℚ) (c : ℕ) : ℕ → ℚ :=
  let grove_offset := row * no * ng + c * ng
  wset w grove_offset ((List.range ng).foldl (fun acc g => acc + w (grove_offset + g)) 0)

/-- Reduction of all classes of one row in phase 2. -/
def reduceRow (no ng : ℕ) (w : ℕ → ℚ) (row : ℕ) : ℕ → ℚ :=
  (List.range no).foldl (reduceRowClass no ng row) w

/-- One phase-2 row of `infer_kernel_cpu`: sum each class's `num_grove` partial cells into
the class's `grove_offset` cell, then invoke the postprocessor once with
`(workspace + row*num_outputs*num_grove, num_outputs, output + row*num_outputs, num_grove)`,
which writes the row's `num_outputs` output values. -/
def rowStep (pp : PostprocFn) (no ng : ℕ) (s : Phase2State) (row : ℕ) : Phase2State :=
  let w := reduceRow no ng s.w row
  let vals := fun k => w (row * no * ng + k)
  { w := w
    out := (List.range no).foldl
      (fun o j => wset o (row * no + j) (pp vals no ng j)) s.out
    calls := s.calls ++ [⟨vals, no, row * no, ng⟩] }

/-- Phase 2 of `infer_kernel_cpu` over all rows (the OpenMP rows are independent; the
in-order fold embeds the parallel loop). -/
def phase2 (pp : PostprocFn) (no ng rc : ℕ) (w out0 : ℕ → ℚ) : Phase2State :=
  (List.range rc).foldl (rowStep pp no ng) ⟨w, out0, []⟩

/-- The CPU inference kernel `infer_kernel_cpu`: phase-1 accumulation into the
zero-initialised workspace, then per-row grove reduction and postprocessing into the
caller's output buffer `out0`. -/
def infer_kernel_cpu (p : KernelArgs) (pp : PostprocFn) (out0 : ℕ → ℚ) : Phase2State :=
  phase2 pp p.num_outputs (numGrove p) p.row_count (phase1 p) out0

/-- Flat workspace indices written by one phase-1 task, read off the accumulation
statements of `infer_kernel_cpu`: for every row of the task's chunk and tree of the
task's grove, the vector branch writes all `num_outputs` class cells of the task's
grove, the scalar branch writes the single cell of class `tree_index % num_outputs`. -/
def taskWriteList (p : KernelArgs) (task_index : ℕ) : List ℕ :=
  (taskRows p task_index).flatMap (fun row =>
    (taskTrees p task_index).flatMap (fun t =>
      match p.leaf with
      | .scalar _ =>
          [cellIdx p.num_outputs (numGrove p) row (t % p.num_outputs) (groveOf p task_index)]
      | .vector _ _ =>
          (List.range p.num_outputs).map
            (fun c => cellIdx p.num_outputs (numGrove p) row c (groveOf p task_index))))

/-- Workspace after the phase-2 reductions of the first `k` rows. -/
def phase2w (no ng : ℕ) (w : ℕ → ℚ) (k : ℕ) : ℕ → ℚ :=
  (List.range k).foldl (reduceRow no ng) w

/-- Closed form of the `r`-th postprocessor invocation record of `infer_kernel_cpu`:
its `vals` view the workspace after the reductions of rows `0..r`, based at
`row * num_outputs * num_grove`; the output count is `num_outputs`, the output offset
`row * num_outputs`, and the stride argument `num_grove`. -/
def callAt (no ng : ℕ) (w : ℕ → ℚ) (r : ℕ) : PPCall :=
  ⟨fun k => phase2w no ng w (r + 1) (r * no * ng + k), no, r * no, ng⟩

/-! ### Arithmetic helper lemmas -/

theorem le_ceildiv_mul (a b : ℕ) (hb : 0 < b) : a ≤ ceildiv a b * b := by
  unfold ceildiv
  have h1 := Nat.div_add_mod (a + b - 1) b
  have h2 := Nat.mod_lt (a + b - 1) hb
  have h3 : (a + b - 1) / b * b = b * ((a + b - 1) / b) := Nat.mul_comm _ _
  omega

theorem div_lt_ceildiv (row rc cs : ℕ) (hcs : 0 < cs) (h : row < rc) :
    row / cs < ceildiv rc cs := by
  unfold ceildiv
  have h1 := Nat.div_add_mod (rc + cs - 1) cs
  have h2 := Nat.mod_lt (rc + cs - 1) hcs
  have h3 := Nat.div_add_mod row cs
  have h4 := Nat.mod_lt row hcs
  by_contra hc
  push_neg at hc
  have h5 : cs * ((rc + cs - 1) / cs) ≤ cs * (row / cs) := Nat.mul_le_mul_left cs hc
  omega

theorem ceildiv_pos (rc cs : ℕ) (hcs : 0 < cs) (hrc : 0 < rc) : 0 < ceildiv rc cs := by
  have h := div_lt_ceildiv 0 rc cs hcs hrc
  have h0 : 0 / cs = 0 := Nat.zero_div cs
  omega

theorem ceildiv_zero_left (gs : ℕ) : ceildiv 0 gs = 0 := by
  unfold ceildiv
  rcases Nat.eq_zero_or_pos gs with h | h
  · simp [h]
  · exact Nat.div_eq_of_lt (by omega)

theorem cell_decompose (no ng r c g : ℕ) (hc : c < no) (hg : g < ng) :
    (r * no * ng + c * ng + g) % ng = g ∧
    ((r * no * ng + c * ng + g) / ng) % no = c ∧
    ((r * no * ng + c * ng + g) / ng) / no = r := by
  have hng : 0 < ng := by omega
  have hno : 0 < no := by omega
  have e1 : r * no * ng + c * ng + g = ng * (r * no + c) + g := by ring
  have em : (r * no * ng + c * ng + g) % ng = g := by
    rw [e1, Nat.mul_add_mod]; exact Nat.mod_eq_of_lt hg
  have ed : (r * no * ng + c * ng + g) / ng = r * no + c := by
    rw [e1, Nat.mul_add_div hng, Nat.div_eq_of_lt hg, Nat.add_zero]
  have e2 : r * no + c = no * r + c := by ring
  refine ⟨em, ?_, ?_⟩
  · rw [ed, e2, Nat.mul_add_mod]; exact Nat.mod_eq_of_lt hc
  · rw [ed, e2, Nat.mul_add_div hno, Nat.div_eq_of_lt hc, Nat.add_zero]

theorem cellIdx_inj (no ng r r' c c' g g' : ℕ) (hc : c < no) (hc' : c' < no)
    (hg : g < ng) (hg' : g' < ng)
    (h : cellIdx no ng r c g = cellIdx no ng r' c' g') :
    r = r' ∧ c = c' ∧ g = g' := by
  unfold cellIdx at h
  obtain ⟨m1, m2, m3⟩ := cell_decompose no ng r c g hc hg
  obtain ⟨n1, n2, n3⟩ := cell_decompose no ng r' c' g' hc' hg'
  rw [h] at m1 m2 m3
  refine ⟨?_, ?_, ?_⟩
  · rw [← m3, n3]
  · rw [← m2, n2]
  · rw [← m1, n1]

/-! ### List helper lemmas -/

theorem foldl_add_eq {α : Type} (l : List α) (f : α → ℚ) (a : ℚ) :
    l.foldl (fun acc g => acc + f g) a = a + (l.map f).sum := by
  induction l generalizing a with
  | nil => simp
  | cons x l ih => simp only [List.foldl_cons, List.map_cons, List.sum_cons, ih]; ring

theorem sum_map_eq_single {α : Type} (l : List α) (f : α → ℚ) (a : α)
    (ha : a ∈ l) (hnd : l.Nodup) (h0 : ∀ b ∈ l, b ≠ a → f b = 0) :
    (l.map f).sum = f a := by
  induction l with
  | nil => cases ha
  | cons x l ih =>
    simp only [List.map_cons, List.sum_cons]
    have hx_notmem : x ∉ l := (List.nodup_cons.mp hnd).1
    rcases List.mem_cons.mp ha with rfl | ha'
    · have hz : (l.map f).sum = 0 := List.sum_eq_zero (by
        intro y hy
        rcases List.mem_map.mp hy with ⟨b, hb, rfl⟩
        exact h0 b (List.mem_cons_of_mem _ hb) (fun hba => hx_notmem (hba ▸ hb)))
      rw [hz, add_zero]
    · have hxa : x ≠ a := fun h => hx_notmem (h ▸ ha')
      rw [h0 x (List.mem_cons_self x l) hxa,
        ih ha' (List.nodup_cons.mp hnd).2
          (fun b hb => h0 b (List.mem_cons_of_mem _ hb)), zero_add]

theorem sum_map_ite_filter (l : List ℕ) (P : ℕ → Prop) [DecidablePred P] (f : ℕ → ℚ) :
    (l.map (fun t => if P t then f t else 0)).sum =
      ((l.filter (fun t => decide (P t))).map f).sum := by
  induction l with
  | nil => rfl
  | cons x l ih =>
    by_cases h : P x <;>
      simp [List.filter_cons, h, ih]

theorem sum_map_flatMap (l : List ℕ) (f : ℕ → List ℕ) (F : ℕ → ℚ) :
    ((l.flatMap f).map F).sum = (l.map (fun a => ((f a).map F).sum)).sum := by
  induction l with
  | nil => rfl
  | cons x l ih => simp [List.flatMap_cons, List.map_append, List.sum_append, ih]

theorem filter_flatMap_comm (l : List ℕ) (f : ℕ → List ℕ) (P : ℕ → Bool) :
    (l.flatMap f).filter P = l.flatMap (fun a => (f a).filter P) := by
  induction l with
  | nil => rfl
  | cons x l ih => simp [List.flatMap_cons, List.filter_append, ih]

/-! ### Pointwise store and accumulation lemmas -/

theorem wset_apply (w : ℕ → ℚ) (i : ℕ) (v : ℚ) (j : ℕ) :
    wset w i v j = if j = i then v else w j := rfl

theorem accum_apply (w : ℕ → ℚ) (i : ℕ) (v : ℚ) (j : ℕ) :
    accum w i v j = w j + if j = i then v else 0 := by
  unfold accum wset
  by_cases h : j = i <;> simp [h]

/-- A workspace transformer is a pure accumulation when it adds a fixed
contribution to every cell. -/
def IsAccum (F : (ℕ → ℚ) → ℕ → ℚ) (c : ℕ → ℚ) : Prop :=
  ∀ w i, F w i = w i + c i

theorem isAccum_foldl {α : Type} (step : (ℕ → ℚ) → α → ℕ → ℚ) (c : α → ℕ → ℚ)
    (h : ∀ a, IsAccum (fun w => step w a) (c a)) (l : List α) :
    IsAccum (fun w => l.foldl step w) (fun i => (l.map (fun a => c a i)).sum) := by
  induction l with
  | nil => intro w i; simp
  | cons a l ih =>
    intro w i
    simp only [List.foldl_cons, List.map_cons, List.sum_cons]
    rw [show List.foldl step (step w a) l i
          = step w a i + (List.map (fun a => c a i) l).sum from ih (step w a) i,
        show step w a i = w i + c a i from h a w i]
    ring

/-! ### Phase-1 contribution analysis -/

/-- Amount the innermost phase-1 loop body for (grove `g`, `row`, tree `t`) adds to
workspace cell `i`. -/
def treeContrib (p : KernelArgs) (g row t i : ℕ) : ℚ :=
  match p.leaf with
  | .scalar eval =>
      if i = cellIdx p.num_outputs (numGrove p) row (t % p.num_outputs) g
      then eval t (rowData p.input p.col_count row) else 0
  | .vector eval vop =>
      ((List.range p.num_outputs).map
        (fun c => if i = cellIdx p.num_outputs (numGrove p) row c g
          then vop (eval t (rowData p.input p.col_count row) * p.num_outputs + c)
          else 0)).sum

theorem treeStep_isAccum (p : KernelArgs) (g row t : ℕ) :
    IsAccum (fun w => treeStep p g row w t) (treeContrib p g row t) := by
  intro w i
  rcases hL : p.leaf with eval | ⟨eval, vop⟩ <;> simp only [treeStep, treeContrib, hL]
  · exact accum_apply w _ _ i
  · exact isAccum_foldl
      (fun w c => accum w (cellIdx p.num_outputs (numGrove p) row c g)
        (vop (eval t (rowData p.input p.col_count row) * p.num_outputs + c)))
      (fun c i => if i = cellIdx p.num_outputs (numGrove p) row c g
        then vop (eval t (rowData p.input p.col_count row) * p.num_outputs + c) else 0)
      (fun c w i => accum_apply w _ _ i) (List.range p.num_outputs) w i

/-- Amount task `task_index` adds to workspace cell `i` during phase 1. -/
def taskContrib (p : KernelArgs) (task_index i : ℕ) : ℚ :=
  ((taskRows p task_index).map (fun row =>
    ((taskTrees p task_index).map
      (fun t => treeContrib p (groveOf p task_index) row t i)).sum)).sum

theorem taskStep_isAccum (p : KernelArgs) (task_index : ℕ) :
    IsAccum (fun w => taskStep p w task_index) (taskContrib p task_index) := by
  intro w i
  unfold taskStep taskContrib
  exact isAccum_foldl _ _
    (fun row => isAccum_foldl _ _
      (fun t => treeStep_isAccum p (groveOf p task_index) row t) _) _ w i

/-- Phase-1 workspace cells are the sums of all task contributions. -/
theorem phase1_apply (p : KernelArgs) (i : ℕ) :
    phase1 p i
      = ((List.range (taskCount p)).map (fun task_index => taskContrib p task_index i)).sum := by
  have h := isAccum_foldl _ _ (taskStep_isAccum p) (List.range (taskCount p)) (fun _ => 0) i
  simpa [phase1] using h

theorem mem_chunkRows (p : KernelArgs) (k row : ℕ) :
    row ∈ chunkRows p k ↔
      k * p.chunk_size ≤ row ∧
        row < min (k * p.chunk_size + p.chunk_size) p.row_count := by
  unfold chunkRows
  rw [List.mem_range'_1]
  omega

theorem mem_groveTrees (p : KernelArgs) (g t : ℕ) :
    t ∈ groveTrees p g ↔
      g * p.grove_size ≤ t ∧
        t < min (g * p.grove_size + p.grove_size) p.tree_count := by
  unfold groveTrees
  rw [List.mem_range'_1]
  omega

theorem chunkRows_nodup (p : KernelArgs) (k : ℕ) : (chunkRows p k).Nodup := by
  unfold chunkRows
  exact List.nodup_range' _ _

theorem groveOf_lt (p : KernelArgs) (task_index : ℕ) (hτ : task_index < taskCount p)
    (hnc : 0 < numChunk p) : groveOf p task_index < numGrove p := by
  unfold groveOf
  exact (Nat.div_lt_iff_lt_mul hnc).mpr hτ

theorem range_flatMap_groveTrees (p : KernelArgs) (n : ℕ) :
    (List.range n).flatMap (groveTrees p)
      = List.range (min (n * p.grove_size) p.tree_count) := by
  induction n with
  | zero => simp
  | succ n ih =>
    rw [List.range_succ, List.flatMap_append, ih]
    simp only [List.flatMap_cons, List.flatMap_nil, List.append_nil]
    rcases le_or_lt p.tree_count (n * p.grove_size) with h | h
    · have e2 : (n + 1) * p.grove_size = n * p.grove_size + p.grove_size := by ring
      have h1 : min (n * p.grove_size) p.tree_count = p.tree_count := by omega
      have h2 : min ((n + 1) * p.grove_size) p.tree_count = p.tree_count := by omega
      have h3 : groveTrees p n = [] := by
        unfold groveTrees
        have e3 : min (n * p.grove_size + p.grove_size) p.tree_count - n * p.grove_size
            = 0 := by omega
        rw [e3]
        rfl
      rw [h1, h2, h3, List.append_nil]
    · have e1 : min (n * p.grove_size) p.tree_count = n * p.grove_size := by omega
      have e2 : (n + 1) * p.grove_size = n * p.grove_size + p.grove_size := by ring
      have key := List.range'_append 0 (n * p.grove_size)
        (min (n * p.grove_size + p.grove_size) p.tree_count - n * p.grove_size) 1
      simp only [Nat.one_mul, Nat.zero_add] at key
      rw [e1]
      unfold groveTrees
      rw [List.range_eq_range', List.range_eq_range', key]
      congr 1
      omega

/-- The groves partition the tree indices. -/
theorem groves_partition (p : KernelArgs) (hgs : 0 < p.grove_size) :
    (List.range (numGrove p)).flatMap (groveTrees p) = List.range p.tree_count := by
  rw [range_flatMap_groveTrees]
  have h := le_ceildiv_mul p.tree_count p.grove_size hgs
  unfold numGrove
  congr 1
  omega

theorem treeContrib_eq_zero (p : KernelArgs) (hno : 0 < p.num_outputs) (g' row' t i : ℕ)
    (h : ∀ c' < p.num_outputs, i ≠ cellIdx p.num_outputs (numGrove p) row' c' g') :
    treeContrib p g' row' t i = 0 := by
  rcases hL : p.leaf with eval | ⟨eval, vop⟩ <;> simp only [treeContrib, hL]
  · exact if_neg (h _ (Nat.mod_lt t hno))
  · apply List.sum_eq_zero
    intro x hx
    rcases List.mem_map.mp hx with ⟨c, hc, rfl⟩
    exact if_neg (h c (List.mem_range.mp hc))

/-- Phase-1 cell characterisation: a valid workspace cell (row, c, g) receives exactly
the contributions of the trees of grove `g` for that row; the unique task owning
(grove `g`, chunk of `row`) is the only task that touches the cell. -/
theorem phase1_cell (p : KernelArgs) (hno : 0 < p.num_outputs) (hcs : 0 < p.chunk_size)
    (row c g : ℕ) (hrow : row < p.row_count) (hc : c < p.num_outputs)
    (hg : g < numGrove p) :
    phase1 p (cellIdx p.num_outputs (numGrove p) row c g)
      = ((groveTrees p g).map
          (fun t => treeContrib p g row t
            (cellIdx p.num_outputs (numGrove p) row c g))).sum := by
  have hnc : 0 < numChunk p := ceildiv_pos p.row_count p.chunk_size hcs (by omega)
  have hchunk_lt : row / p.chunk_size < numChunk p :=
    div_lt_ceildiv row p.row_count p.chunk_size hcs hrow
  set i := cellIdx p.num_outputs (numGrove p) row c g with hi
  set ts := g * numChunk p + row / p.chunk_size with hts
  have ht_lt : ts < taskCount p := by
    unfold taskCount
    have h1 : (g + 1) * numChunk p = g * numChunk p + numChunk p := by ring
    have h2 : (g + 1) * numChunk p ≤ numGrove p * numChunk p :=
      Nat.mul_le_mul_right _ (by omega)
    omega
  have hgrove_s : groveOf p ts = g := by
    unfold groveOf
    rw [hts, show g * numChunk p + row / p.chunk_size
          = numChunk p * g + row / p.chunk_size from by ring,
        Nat.mul_add_div hnc, Nat.div_eq_of_lt hchunk_lt, Nat.add_zero]
  have hchunk_s : chunkOf p ts = row / p.chunk_size := by
    unfold chunkOf
    rw [hts, show g * numChunk p + row / p.chunk_size
          = numChunk p * g + row / p.chunk_size from by ring,
        Nat.mul_add_mod, Nat.mod_eq_of_lt hchunk_lt]
  have hrow_mem : row ∈ taskRows p ts := by
    unfold taskRows
    rw [hchunk_s, mem_chunkRows]
    have h1 : row / p.chunk_size * p.chunk_size ≤ row := Nat.div_mul_le_self row _
    have h2 := Nat.div_add_mod row p.chunk_size
    have h3 := Nat.mod_lt row hcs
    have h4 : p.chunk_size * (row / p.chunk_size) = row / p.chunk_size * p.chunk_size :=
      Nat.mul_comm _ _
    omega
  have huniq : ∀ τ ∈ List.range (taskCount p), τ ≠ ts → taskContrib p τ i = 0 := by
    intro τ hτm hne
    unfold taskContrib
    apply List.sum_eq_zero
    intro x hx
    rcases List.mem_map.mp hx with ⟨row1, hrow1, rfl⟩
    apply List.sum_eq_zero
    intro y hy
    rcases List.mem_map.mp hy with ⟨t, _, rfl⟩
    apply treeContrib_eq_zero p hno
    intro c1 hc1 heq
    have hgτ : groveOf p τ < numGrove p := groveOf_lt p τ (List.mem_range.mp hτm) hnc
    obtain ⟨e_r, _, e_g⟩ :=
      cellIdx_inj p.num_outputs (numGrove p) row row1 c c1 g (groveOf p τ)
        hc hc1 hg hgτ (hi.symm.trans heq)
    apply hne
    have hbounds := (mem_chunkRows p (chunkOf p τ) row1).mp hrow1
    have hch : row / p.chunk_size = chunkOf p τ := by
      rw [e_r]
      refine Nat.div_eq_of_lt_le (by omega) ?_
      have e : (chunkOf p τ + 1) * p.chunk_size
          = chunkOf p τ * p.chunk_size + p.chunk_size := by ring
      omega
    have hdm := Nat.div_add_mod τ (numChunk p)
    rw [hts, e_g, hch,
      show groveOf p τ * numChunk p = numChunk p * groveOf p τ from Nat.mul_comm _ _]
    exact hdm.symm
  rw [phase1_apply,
    sum_map_eq_single (List.range (taskCount p)) (fun τ => taskContrib p τ i) ts
      (List.mem_range.mpr ht_lt) (List.nodup_range _) huniq]
  unfold taskContrib
  have hrowuniq : ∀ row1 ∈ taskRows p ts, row1 ≠ row →
      ((taskTrees p ts).map (fun t => treeContrib p (groveOf p ts) row1 t i)).sum = 0 := by
    intro row1 hrow1 hne
    apply List.sum_eq_zero
    intro y hy
    rcases List.mem_map.mp hy with ⟨t, _, rfl⟩
    apply treeContrib_eq_zero p hno
    intro c1 hc1 heq
    obtain ⟨e_r, _, _⟩ :=
      cellIdx_inj p.num_outputs (numGrove p) row row1 c c1 g (groveOf p ts)
        hc hc1 hg (by rw [hgrove_s]; exact hg) (hi.symm.trans heq)
    exact hne e_r.symm
  rw [sum_map_eq_single (taskRows p ts)
      (fun row1 => ((taskTrees p ts).map
        (fun t => treeContrib p (groveOf p ts) row1 t i)).sum) row
      hrow_mem (chunkRows_nodup p _) hrowuniq]
  show ((taskTrees p ts).map (fun t => treeContrib p (groveOf p ts) row t i)).sum = _
  unfold taskTrees
  rw [hgrove_s]

theorem treeContrib_at_cell_scalar (p : KernelArgs) (eval : ℕ → (ℕ → ℚ) → ℚ)
    (hL : p.leaf = .scalar eval) (row c g t : ℕ) (hc : c < p.num_outputs)
    (hg : g < numGrove p) :
    treeContrib p g row t (cellIdx p.num_outputs (numGrove p) row c g)
      = if t % p.num_outputs = c
        then eval t (rowData p.input p.col_count row) else 0 := by
  simp only [treeContrib, hL]
  by_cases h : t % p.num_outputs = c
  · rw [h]
    simp
  · have hne : ¬(cellIdx p.num_outputs (numGrove p) row c g
        = cellIdx p.num_outputs (numGrove p) row (t % p.num_outputs) g) := by
      intro heq
      obtain ⟨_, e_c, _⟩ := cellIdx_inj p.num_outputs (numGrove p) row row
        c (t % p.num_outputs) g g hc (Nat.mod_lt t (by omega)) hg hg heq
      exact h e_c.symm
    rw [if_neg hne, if_neg h]

theorem treeContrib_at_cell_vector (p : KernelArgs) (eval : ℕ → (ℕ → ℚ) → ℕ)
    (vop : ℕ → ℚ) (hL : p.leaf = .vector eval vop) (row c g t : ℕ)
    (hc : c < p.num_outputs) (hg : g < numGrove p) :
    treeContrib p g row t (cellIdx p.num_outputs (numGrove p) row c g)
      = vop (eval t (rowData p.input p.col_count row) * p.num_outputs + c) := by
  simp only [treeContrib, hL]
  rw [sum_map_eq_single (List.range p.num_outputs)
      (fun c1 => if cellIdx p.num_outputs (numGrove p) row c g
          = cellIdx p.num_outputs (numGrove p) row c1 g
        then vop (eval t (rowData p.input p.col_count row) * p.num_outputs + c1) else 0)
      c (List.mem_range.mpr hc) (List.nodup_range _) ?_]
  · simp
  · intro c1 hc1 hne
    apply if_neg
    intro heq
    obtain ⟨_, e_c, _⟩ := cellIdx_inj p.num_outputs (numGrove p) row row c c1 g g
      hc (List.mem_range.mp hc1) hg hg heq
    exact hne e_c.symm

/-- Scalar-leaf cell characterisation: cell (row, c, g) holds the sum of the leaf values
of the grove-`g` trees whose index is congruent to `c` modulo `num_outputs`. -/
theorem phase1_cell_scalar (p : KernelArgs) (eval : ℕ → (ℕ → ℚ) → ℚ)
    (hL : p.leaf = .scalar eval) (hcs : 0 < p.chunk_size) (row c g : ℕ)
    (hrow : row < p.row_count) (hc : c < p.num_outputs) (hg : g < numGrove p) :
    phase1 p (cellIdx p.num_outputs (numGrove p) row c g)
      = (((groveTrees p g).filter (fun t => decide (t % p.num_outputs = c))).map
          (fun t => eval t (rowData p.input p.col_count row))).sum := by
  have hno : 0 < p.num_outputs := by omega
  rw [phase1_cell p hno hcs row c g hrow hc hg,
    List.map_congr_left
      (fun t _ => treeContrib_at_cell_scalar p eval hL row c g t hc hg)]
  exact sum_map_ite_filter _ _ _

/-- Vector-leaf cell characterisation: cell (row, c, g) holds the sum over the grove-`g`
trees of entry `leaf_index * num_outputs + c` of the vector-output table. -/
theorem phase1_cell_vector (p : KernelArgs) (eval : ℕ → (ℕ → ℚ) → ℕ) (vop : ℕ → ℚ)
    (hL : p.leaf = .vector eval vop) (hcs : 0 < p.chunk_size) (row c g : ℕ)
    (hrow : row < p.row_count) (hc : c < p.num_outputs) (hg : g < numGrove p) :
    phase1 p (cellIdx p.num_outputs (numGrove p) row c g)
      = ((groveTrees p g).map
          (fun t => vop (eval t (rowData p.input p.col_count row)
            * p.num_outputs + c))).sum := by
  have hno : 0 < p.num_outputs := by omega
  rw [phase1_cell p hno hcs row c g hrow hc hg,
    List.map_congr_left
      (fun t _ => treeContrib_at_cell_vector p eval vop hL row c g t hc hg)]

/-- Summing a class's cells across all groves (scalar leaves) yields the filtered sum
over all trees of the forest. -/
theorem grove_sum_scalar (p : KernelArgs) (eval : ℕ → (ℕ → ℚ) → ℚ)
    (hL : p.leaf = .scalar eval) (hcs : 0 < p.chunk_size) (hgs : 0 < p.grove_size)
    (row c : ℕ) (hrow : row < p.row_count) (hc : c < p.num_outputs) :
    ((List.range (numGrove p)).map
        (fun g => phase1 p (cellIdx p.num_outputs (numGrove p) row c g))).sum
      = (((List.range p.tree_count).filter
            (fun t => decide (t % p.num_outputs = c))).map
          (fun t => eval t (rowData p.input p.col_count row))).sum := by
  rw [List.map_congr_left (fun g hg =>
    phase1_cell_scalar p eval hL hcs row c g hrow hc (List.mem_range.mp hg))]
  rw [← groves_partition p hgs, filter_flatMap_comm, sum_map_flatMap]

/-- Summing a class's cells across all groves (vector leaves) yields the sum over all
trees of the forest. -/
theorem grove_sum_vector (p : KernelArgs) (eval : ℕ → (ℕ → ℚ) → ℕ) (vop : ℕ → ℚ)
    (hL : p.leaf = .vector eval vop) (hcs : 0 < p.chunk_size) (hgs : 0 < p.grove_size)
    (row c : ℕ) (hrow : row < p.row_count) (hc : c < p.num_outputs) :
    ((List.range (numGrove p)).map
        (fun g => phase1 p (cellIdx p.num_outputs (numGrove p) row c g))).sum
      = ((List.range p.tree_count).map
          (fun t => vop (eval t (rowData p.input p.col_count row)
            * p.num_outputs + c))).sum := by
  rw [List.map_congr_left (fun g hg =>
    phase1_cell_vector p eval vop hL hcs row c g hrow hc (List.mem_range.mp hg))]
  rw [← groves_partition p hgs, sum_map_flatMap]

/-! ### Phase-2 analysis -/

theorem reduceRowClass_apply (no ng row : ℕ) (w : ℕ → ℚ) (c i : ℕ) :
    reduceRowClass no ng row w c i
      = if i = row * no * ng + c * ng
        then (List.range ng).foldl
          (fun acc g => acc + w (row * no * ng + c * ng + g)) 0
        else w i := rfl

theorem reduceRow_fold_local (no ng row : ℕ) (l : List ℕ) :
    ∀ (w : ℕ → ℚ) (i : ℕ), (∀ c ∈ l, i ≠ row * no * ng + c * ng) →
      (l.foldl (reduceRowClass no ng row) w) i = w i := by
  induction l with
  | nil => intro w i _; rfl
  | cons c l ih =>
    intro w i h
    rw [List.foldl_cons, ih _ _ (fun c1 hc1 => h c1 (List.mem_cons_of_mem _ hc1)),
      reduceRowClass_apply, if_neg (h c (List.mem_cons_self _ _))]

theorem reduceRow_fold_value (no ng row : ℕ) (hng : 0 < ng) :
    ∀ (k a : ℕ) (w : ℕ → ℚ) (c : ℕ), a ≤ c → c < a + k →
      ((List.range' a k).foldl (reduceRowClass no ng row) w) (row * no * ng + c * ng)
        = ((List.range ng).map
            (fun g => w (row * no * ng + c * ng + g))).sum := by
  intro k
  induction k with
  | zero => intro a w c h1 h2; omega
  | succ k ih =>
    intro a w c h1 h2
    rw [List.range'_succ, List.foldl_cons]
    rcases eq_or_lt_of_le h1 with rfl | hlt
    · rw [reduceRow_fold_local no ng row _ _ _ ?_ , reduceRowClass_apply, if_pos rfl,
        foldl_add_eq, zero_add]
      intro c1 hc1
      have hb := List.mem_range'_1.mp hc1
      have hm : (a + 1) * ng ≤ c1 * ng := Nat.mul_le_mul_right ng (by omega)
      have he : (a + 1) * ng = a * ng + ng := by ring
      omega
    · rw [ih (a + 1) (reduceRowClass no ng row w a) c (by omega) (by omega)]
      refine congrArg List.sum (List.map_congr_left ?_)
      intro g hg
      have hgng := List.mem_range.mp hg
      have hm : (a + 1) * ng ≤ c * ng := Nat.mul_le_mul_right ng (by omega)
      have he : (a + 1) * ng = a * ng + ng := by ring
      rw [reduceRowClass_apply, if_neg (by omega)]

theorem reduceRow_apply_class (no ng : ℕ) (hng : 0 < ng) (w : ℕ → ℚ) (row c : ℕ)
    (hc : c < no) :
    reduceRow no ng w row (row * no * ng + c * ng)
      = ((List.range ng).map (fun g => w (row * no * ng + c * ng + g))).sum := by
  unfold reduceRow
  rw [List.range_eq_range']
  exact reduceRow_fold_value no ng row hng no 0 w c (by omega) (by omega)

theorem reduceRow_local (no ng : ℕ) (w : ℕ → ℚ) (row i : ℕ)
    (h : ∀ c < no, i ≠ row * no * ng + c * ng) :
    reduceRow no ng w row i = w i := by
  unfold reduceRow
  rw [List.range_eq_range']
  exact reduceRow_fold_local no ng row _ w i
    (fun c hc => h c (by have := List.mem_range'_1.mp hc; omega))

theorem reduceRow_local_block (no ng : ℕ) (hng : 0 < ng) (w : ℕ → ℚ) (row i : ℕ)
    (h : i < row * no * ng ∨ (row + 1) * no * ng ≤ i) :
    reduceRow no ng w row i = w i := by
  apply reduceRow_local
  intro c hc
  have h1 : c * ng < no * ng := Nat.mul_lt_mul_of_lt_of_le hc (Nat.le_refl ng) hng
  have h2 : (row + 1) * no * ng = row * no * ng + no * ng := by ring
  omega

theorem phase2w_succ (no ng : ℕ) (w : ℕ → ℚ) (k : ℕ) :
    phase2w no ng w (k + 1) = reduceRow no ng (phase2w no ng w k) k := by
  unfold phase2w
  rw [List.range_succ, List.foldl_append, List.foldl_cons, List.foldl_nil]

theorem phase2w_local (no ng : ℕ) (hng : 0 < ng) (w : ℕ → ℚ) (k i : ℕ)
    (h : k * no * ng ≤ i) :
    phase2w no ng w k i = w i := by
  induction k with
  | zero => rfl
  | succ k ih =>
    have h1 : k * no ≤ (k + 1) * no := Nat.mul_le_mul_right no (by omega)
    have h2 : k * no * ng ≤ (k + 1) * no * ng := Nat.mul_le_mul_right ng h1
    rw [phase2w_succ, reduceRow_local_block no ng hng _ k i (Or.inr h), ih (by omega)]

theorem phase2w_value (no ng : ℕ) (hng : 0 < ng) (w : ℕ → ℚ) (k r c : ℕ)
    (hr : r < k) (hc : c < no) :
    phase2w no ng w k (r * no * ng + c * ng)
      = ((List.range ng).map (fun g => w (r * no * ng + c * ng + g))).sum := by
  induction k with
  | zero => omega
  | succ k ih =>
    rcases Nat.lt_or_ge r k with h | h
    · have h1 : c * ng < no * ng := Nat.mul_lt_mul_of_lt_of_le hc (Nat.le_refl ng) hng
      have h2 : (r + 1) * no ≤ k * no := Nat.mul_le_mul_right no (by omega)
      have h3 : (r + 1) * no * ng ≤ k * no * ng := Nat.mul_le_mul_right ng h2
      have h4 : (r + 1) * no * ng = r * no * ng + no * ng := by ring
      rw [phase2w_succ, reduceRow_local_block no ng hng _ k _ (Or.inl (by omega)), ih h]
    · have hrk : r = k := by omega
      subst hrk
      rw [phase2w_succ, reduceRow_apply_class no ng hng _ r c hc]
      refine congrArg List.sum (List.map_congr_left ?_)
      intro g _
      exact phase2w_local no ng hng w r _ (by omega)

theorem rowStep_w (pp : PostprocFn) (no ng : ℕ) (s : Phase2State) (row : ℕ) :
    (rowStep pp no ng s row).w = reduceRow no ng s.w row := rfl

theorem rowStep_calls (pp : PostprocFn) (no ng : ℕ) (s : Phase2State) (row : ℕ) :
    (rowStep pp no ng s row).calls
      = s.calls ++ [⟨fun k => reduceRow no ng s.w row (row * no * ng + k),
          no, row * no, ng⟩] := rfl

theorem rowStep_out (pp : PostprocFn) (no ng : ℕ) (s : Phase2State) (row : ℕ) :
    (rowStep pp no ng s row).out
      = (List.range no).foldl
          (fun o j => wset o (row * no + j)
            (pp (fun k => reduceRow no ng s.w row (row * no * ng + k)) no ng j))
          s.out := rfl

theorem phase2_succ (pp : PostprocFn) (no ng rc : ℕ) (w out0 : ℕ → ℚ) :
    phase2 pp no ng (rc + 1) w out0
      = rowStep pp no ng (phase2 pp no ng rc w out0) rc := by
  unfold phase2
  rw [List.range_succ, List.foldl_append, List.foldl_cons, List.foldl_nil]

theorem phase2_w_eq (pp : PostprocFn) (no ng rc : ℕ) (w out0 : ℕ → ℚ) :
    (phase2 pp no ng rc w out0).w = phase2w no ng w rc := by
  induction rc with
  | zero => rfl
  | succ rc ih =>
    rw [phase2_succ, phase2w_succ, rowStep_w, ih]

theorem phase2_calls_eq (pp : PostprocFn) (no ng rc : ℕ) (w out0 : ℕ → ℚ) :
    (phase2 pp no ng rc w out0).calls = (List.range rc).map (callAt no ng w) := by
  induction rc with
  | zero => rfl
  | succ rc ih =>
    rw [phase2_succ, rowStep_calls, ih, phase2_w_eq, List.range_succ, List.map_append]
    simp only [List.map_cons, List.map_nil, callAt, phase2w_succ]

theorem phase2_calls_length (pp : PostprocFn) (no ng rc : ℕ) (w out0 : ℕ → ℚ) :
    (phase2 pp no ng rc w out0).calls.length = rc := by
  rw [phase2_calls_eq, List.length_map, List.length_range]

theorem phase2_calls_get (pp : PostprocFn) (no ng rc : ℕ) (w out0 : ℕ → ℚ) (r : ℕ)
    (hr : r < rc) :
    (phase2 pp no ng rc w out0).calls[r]? = some (callAt no ng w r) := by
  rw [phase2_calls_eq, List.getElem?_map]
  simp [List.getElem?_range, hr]

theorem writeRange_apply (out : ℕ → ℚ) (base : ℕ) (v : ℕ → ℚ) (no j : ℕ) (hj : j < no) :
    ((List.range no).foldl (fun o k => wset o (base + k) (v k)) out) (base + j) = v j := by
  induction no with
  | zero => omega
  | succ n ih =>
    rw [List.range_succ, List.foldl_append, List.foldl_cons, List.foldl_nil]
    rcases Nat.lt_or_ge j n with h | h
    · rw [wset_apply, if_neg (by omega), ih h]
    · have hjn : j = n := by omega
      subst hjn
      rw [wset_apply, if_pos rfl]

theorem writeRange_local (out : ℕ → ℚ) (base : ℕ) (v : ℕ → ℚ) (no i : ℕ)
    (h : ∀ j < no, i ≠ base + j) :
    ((List.range no).foldl (fun o k => wset o (base + k) (v k)) out) i = out i := by
  induction no with
  | zero => rfl
  | succ n ih =>
    rw [List.range_succ, List.foldl_append, List.foldl_cons, List.foldl_nil,
      wset_apply, if_neg (h n (by omega)), ih (fun j hj => h j (by omega))]

theorem phase2_out_apply (pp : PostprocFn) (no ng : ℕ) (w out0 : ℕ → ℚ) (r j : ℕ)
    (hj : j < no) :
    ∀ rc, r < rc →
      (phase2 pp no ng rc w out0).out (r * no + j)
        = pp (callAt no ng w r).vals no ng j := by
  intro rc
  induction rc with
  | zero => omega
  | succ rc ih =>
    intro hr
    rw [phase2_succ, rowStep_out]
    rcases Nat.lt_or_ge r rc with h | h
    · rw [writeRange_local _ _ _ _ _ ?_, ih h]
      intro j1 _
      have h1 : (r + 1) * no ≤ rc * no := Nat.mul_le_mul_right no (by omega)
      have h2 : (r + 1) * no = r * no + no := by ring
      omega
    · have hrrc : r = rc := by omega
      subst hrrc
      rw [writeRange_apply _ _ _ _ _ hj, phase2_w_eq, ← phase2w_succ]
      rfl

/-- The strided entries of the first postprocessor argument are the per-class reduced
aggregates: entry `class * num_grove` sums the class's cells across all groves. -/
theorem callAt_vals_strided (no ng : ℕ) (hng : 0 < ng) (w : ℕ → ℚ) (r c : ℕ)
    (hc : c < no) :
    (callAt no ng w r).vals (c * ng)
      = ((List.range ng).map (fun g => w (r * no * ng + c * ng + g))).sum := by
  show phase2w no ng w (r + 1) (r * no * ng + c * ng) = _
  exact phase2w_value no ng hng w (r + 1) r c (by omega) hc

/-! ### Degenerate cases (no trees: `num_grove = 0`) -/

theorem numGrove_zero (p : KernelArgs) (htc : p.tree_count = 0) : numGrove p = 0 := by
  unfold numGrove
  rw [htc, ceildiv_zero_left]

theorem phase1_zero_trees (p : KernelArgs) (htc : p.tree_count = 0) :
    phase1 p = fun _ => 0 := by
  unfold phase1 taskCount
  rw [numGrove_zero p htc, Nat.zero_mul]
  rfl

theorem reduceRowClass_fold_zero (no ng row : ℕ) (l : List ℕ) :
    ∀ (w : ℕ → ℚ), (∀ i, w i = 0) →
      ∀ i, (l.foldl (reduceRowClass no ng row) w) i = 0 := by
  induction l with
  | nil => intro w hw i; exact hw i
  | cons c l ih =>
    intro w hw i
    rw [List.foldl_cons]
    apply ih
    intro i1
    rw [reduceRowClass_apply]
    split
    · rw [foldl_add_eq, zero_add]
      apply List.sum_eq_zero
      intro x hx
      rcases List.mem_map.mp hx with ⟨g, _, rfl⟩
      exact hw _
    · exact hw i1

theorem phase2w_zero (no ng : ℕ) (w : ℕ → ℚ) (hw : ∀ i, w i = 0) (k : ℕ) :
    ∀ i, phase2w no ng w k i = 0 := by
  induction k with
  | zero => exact hw
  | succ k ih =>
    intro i
    rw [phase2w_succ]
    exact reduceRowClass_fold_zero no ng k _ _ ih i

/-! ### Task write-set analysis -/

theorem taskWriteList_shape (p : KernelArgs) (hno : 0 < p.num_outputs) (τ i : ℕ)
    (h : i ∈ taskWriteList p τ) :
    ∃ row ∈ taskRows p τ, ∃ c < p.num_outputs,
      i = cellIdx p.num_outputs (numGrove p) row c (groveOf p τ) := by
  unfold taskWriteList at h
  rcases List.mem_flatMap.mp h with ⟨row, hrow, h2⟩
  rcases List.mem_flatMap.mp h2 with ⟨t, ht, h3⟩
  rcases hL : p.leaf with eval | ⟨eval, vop⟩
  · simp only [hL] at h3
    rcases List.mem_singleton.mp h3 with rfl
    exact ⟨row, hrow, t % p.num_outputs, Nat.mod_lt t hno, rfl⟩
  · simp only [hL] at h3
    rcases List.mem_map.mp h3 with ⟨c, hc, rfl⟩
    exact ⟨row, hrow, c, List.mem_range.mp hc, rfl⟩

/-- No two distinct phase-1 tasks write a common workspace cell. -/
theorem taskWrite_disjoint (p : KernelArgs) (hno : 0 < p.num_outputs)
    (τ1 τ2 i : ℕ) (h1 : τ1 < taskCount p) (h2 : τ2 < taskCount p) (hne : τ1 ≠ τ2)
    (m1 : i ∈ taskWriteList p τ1) (m2 : i ∈ taskWriteList p τ2) : False := by
  have hnc : 0 < numChunk p := by
    rcases Nat.eq_zero_or_pos (numChunk p) with h | h
    · unfold taskCount at h1
      rw [h, Nat.mul_zero] at h1
      omega
    · exact h
  obtain ⟨r1, hr1, c1, hc1, e1⟩ := taskWriteList_shape p hno τ1 i m1
  obtain ⟨r2, hr2, c2, hc2, e2⟩ := taskWriteList_shape p hno τ2 i m2
  have hg1 : groveOf p τ1 < numGrove p := groveOf_lt p τ1 h1 hnc
  have hg2 : groveOf p τ2 < numGrove p := groveOf_lt p τ2 h2 hnc
  obtain ⟨er, _, eg⟩ := cellIdx_inj p.num_outputs (numGrove p) r1 r2 c1 c2
    (groveOf p τ1) (groveOf p τ2) hc1 hc2 hg1 hg2 (e1.symm.trans e2)
  have hb1 := (mem_chunkRows p (chunkOf p τ1) r1).mp hr1
  have hb2 := (mem_chunkRows p (chunkOf p τ2) r2).mp hr2
  rw [← er] at hb2
  have hcs : 0 < p.chunk_size := by
    rcases Nat.eq_zero_or_pos p.chunk_size with h | h
    · exfalso
      have hz : numChunk p = 0 := by
        unfold numChunk ceildiv
        rw [h]
        simp
      omega
    · exact h
  have d1 : r1 / p.chunk_size = chunkOf p τ1 := by
    refine Nat.div_eq_of_lt_le (by omega) ?_
    have e : (chunkOf p τ1 + 1) * p.chunk_size
        = chunkOf p τ1 * p.chunk_size + p.chunk_size := by ring
    omega
  have d2 : r1 / p.chunk_size = chunkOf p τ2 := by
    refine Nat.div_eq_of_lt_le (by omega) ?_
    have e : (chunkOf p τ2 + 1) * p.chunk_size
        = chunkOf p τ2 * p.chunk_size + p.chunk_size := by ring
    omega
  have t1 : numChunk p * groveOf p τ1 + chunkOf p τ1 = τ1 := Nat.div_add_mod τ1 (numChunk p)
  have t2 : numChunk p * groveOf p τ2 + chunkOf p τ2 = τ2 := Nat.div_add_mod τ2 (numChunk p)
  have em : numChunk p * groveOf p τ1 = numChunk p * groveOf p τ2 := by rw [eg]
  omega

/-! ### Dispatch layer (`infer` of `infer.hpp`) -/

/-- Identity of a compiled specialization of `inference::infer` as selected by the
dispatch operation: the boolean template argument (categorical-node support compiled in)
and whether the vector-output resp. categorical-data template types are
`std::nullptr_t`. -/
structure Specialization where
  cat_nodes_compiled : Bool
  vector_type_null : Bool
  cat_type_null : Bool
deriving DecidableEq

/-- The dispatch operation `infer` of `infer.hpp`: nested branches on
`vector_output == nullptr`, then `categorical_data == nullptr`, then
`!has_categorical_nodes`, selecting the compiled specialization to forward to. -/
def dispatch (has_categorical_nodes vector_output_null categorical_data_null : Bool) :
    Specialization :=
  if vector_output_null then
    if categorical_data_null then
      if !has_categorical_nodes then ⟨false, true, true⟩
      else ⟨true, true, true⟩
    else ⟨true, true, false⟩
  else
    if categorical_data_null then
      if !has_categorical_nodes then ⟨false, false, true⟩
      else ⟨true, false, true⟩
    else ⟨true, false, false⟩

/-- Call sites of the dispatch operation, one constructor per `inference::infer` call
in `infer.hpp`; the relation holds when the given runtime flag combination reaches that
call site, forwarding to that specialization. -/
inductive DispatchCall : Bool → Bool → Bool → Specialization → Prop where
  | site1 : DispatchCall false true true ⟨false, true, true⟩
  | site2 : DispatchCall true true true ⟨true, true, true⟩
  | site3 (hcn : Bool) : DispatchCall hcn true false ⟨true, true, false⟩
  | site4 : DispatchCall false false true ⟨false, false, true⟩
  | site5 : DispatchCall true false true ⟨true, false, true⟩
  | site6 (hcn : Bool) : DispatchCall hcn false false ⟨true, false, false⟩

theorem dispatch_reaches (hcn vn cn : Bool) :
    DispatchCall hcn vn cn (dispatch hcn vn cn) := by
  cases hcn <;> cases vn <;> cases cn <;>
    first
      | exact DispatchCall.site1
      | exact DispatchCall.site2
      | exact DispatchCall.site3 _
      | exact DispatchCall.site4
      | exact DispatchCall.site5
      | exact DispatchCall.site6 _

theorem dispatch_unique (hcn vn cn : Bool) (s : Specialization)
    (h : DispatchCall hcn vn cn s) : s = dispatch hcn vn cn := by
  cases h
  case site1 => rfl
  case site2 => rfl
  case site3 => cases hcn <;> rfl
  case site4 => rfl
  case site5 => rfl
  case site6 => cases hcn <;> rfl

/-! ### Error handling (spec §7) -/

/-- Error kinds of an inference call, per spec §7. -/
inductive FilError where
  | configurationError
  | deviceError
  | allocationError
deriving DecidableEq

/-- Modelled from the spec: the validating entry of the inference call (spec §7; the
validation and exception code — `exceptions.hpp` and the `inference::infer` wrappers —
is not among the available sources).  Every error is detected before any row is
processed: the check is evaluated before the kernel `run` touches anything, and on
failure the caller's output buffer keeps its prior contents `out0`. -/
def infer_with_validation (check : Option FilError)
    (run : (ℕ → ℚ) → ℕ → ℚ) (out0 : ℕ → ℚ) : Except FilError Unit × (ℕ → ℚ) :=
  match check with
  | some e => (Except.error e, out0)
  | none => (Except.ok (), run out0)

/-! ### Claim theorems -/

/-- Claim C4: for every combination of the three runtime conditions
(`has_categorical_nodes`, `vector_output` non-null, `categorical_data` non-null) the
dispatch operation `infer` reaches exactly one `inference::infer` call site and thus
selects exactly one compiled specialization: the call-site relation is total and
single-valued over all 8 boolean combinations. -/
theorem c4_dispatch_total_unique :
    ∀ (has_categorical_nodes vector_output_null categorical_data_null : Bool),
      ∃! s : Specialization,
        DispatchCall has_categorical_nodes vector_output_null categorical_data_null s :=
  fun hcn vn cn =>
    ⟨dispatch hcn vn cn, dispatch_reaches hcn vn cn,
      fun s hs => dispatch_unique hcn vn cn s hs⟩

/-- Claim C9: when `categorical_data` is non-null, the `has_categorical_nodes` argument
is ignored by the dispatch operation: the selected specialization is the same for both
values of the flag and always has categorical-node support compiled in, in both the
vector-output and non-vector-output branches. -/
theorem c9_categorical_data_overrides :
    ∀ (has_categorical_nodes vector_output_null : Bool),
      dispatch has_categorical_nodes vector_output_null false
          = dispatch true vector_output_null false ∧
        (dispatch has_categorical_nodes vector_output_null false).cat_nodes_compiled
          = true := by
  decide

/-- Claim C5 (amended): during phase-1 accumulation each workspace cell is written by at
most one task — no two distinct tasks ever write the same workspace cell (hence the
accumulation phase needs no locks or atomics); a valid cell may however be written by
zero tasks. -/
theorem c5_disjoint_writes (p : KernelArgs) (hno : 0 < p.num_outputs)
    (τ1 τ2 i : ℕ) (h1 : τ1 < taskCount p) (h2 : τ2 < taskCount p) (hne : τ1 ≠ τ2) :
    ¬(i ∈ taskWriteList p τ1 ∧ i ∈ taskWriteList p τ2) :=
  fun ⟨m1, m2⟩ => taskWrite_disjoint p hno τ1 τ2 i h1 h2 hne m1 m2

/-- Witness for claim C5 (amended): in a 2-tree, 2-output, 1-row forest with
`grove_size = chunk_size = 1`, task 0 writes cell 0 and no other task writes it. -/
theorem c5_disjoint_writes_witness :
    (0 ∈ taskWriteList ⟨.scalar (fun _ _ => 1), (fun _ => 0), 1, 1, 2, 1, 1, 2⟩ 0) ∧
      ¬((0 ∈ taskWriteList ⟨.scalar (fun _ _ => 1), (fun _ => 0), 1, 1, 2, 1, 1, 2⟩ 0) ∧
        (0 ∈ taskWriteList ⟨.scalar (fun _ _ => 1), (fun _ => 0), 1, 1, 2, 1, 1, 2⟩ 1)) :=
  ⟨by decide,
    c5_disjoint_writes ⟨.scalar (fun _ _ => 1), (fun _ => 0), 1, 1, 2, 1, 1, 2⟩
      (by decide) 0 1 0 (by decide) (by decide) (by decide)⟩

/-- Counterexample to claim C5 as stated: in a scalar 2-tree, 2-output, 1-row forest
with `grove_size = 1`, the valid workspace cell (row 0, class 1, grove 0) — flat index
`cellIdx 2 2 0 1 0` — is written by zero tasks, not exactly one: grove 0 holds only
tree 0 and `0 % 2 ≠ 1`. -/
theorem c5_cell_zero_writes :
    ((List.range (taskCount ⟨.scalar (fun _ _ => 1), (fun _ => 0), 1, 1, 2, 1, 1, 2⟩)).filter
        (fun τ => decide (cellIdx 2 2 0 1 0 ∈
          taskWriteList ⟨.scalar (fun _ _ => 1), (fun _ => 0), 1, 1, 2, 1, 1, 2⟩ τ))).length
        = 0 ∧
      (0 : ℕ) < (⟨.scalar (fun _ _ => 1), (fun _ => 0), 1, 1, 2, 1, 1, 2⟩ : KernelArgs).row_count ∧
      (1 : ℕ) < (⟨.scalar (fun _ _ => 1), (fun _ => 0), 1, 1, 2, 1, 1, 2⟩ : KernelArgs).num_outputs ∧
      (0 : ℕ) < numGrove ⟨.scalar (fun _ _ => 1), (fun _ => 0), 1, 1, 2, 1, 1, 2⟩ := by
  decide

/-- Claim C8: a failing inference call (ConfigurationError, DeviceError or
AllocationError) is detected before any row is processed — the result does not depend
on the kernel at all — and the caller's output buffer keeps its prior contents. -/
theorem c8_error_before_rows (check : Option FilError)
    (run run2 : (ℕ → ℚ) → ℕ → ℚ) (out0 : ℕ → ℚ) (e : FilError)
    (h : (infer_with_validation check run out0).1 = Except.error e) :
    (infer_with_validation check run out0).2 = out0 ∧
      infer_with_validation check run out0 = infer_with_validation check run2 out0 := by
  rcases check with _ | e1
  · simp [infer_with_validation] at h
  · exact ⟨rfl, rfl⟩

/-- Witness for claim C8: a configuration failure of a call whose kernel would be
`infer_kernel_cpu` on a 1-tree forest leaves the output buffer untouched, and the
result equals that of the same failing call around any other kernel. -/
theorem c8_error_before_rows_witness :
    (infer_with_validation (some FilError.configurationError)
      (fun o => (infer_kernel_cpu ⟨.scalar (fun _ _ => 1), (fun _ => 0), 1, 1, 1, 1, 1, 1⟩
        (fun f _ s j => f (j * s)) o).out)
      (fun _ => 7)).2 = (fun _ => (7 : ℚ)) ∧
      infer_with_validation (some FilError.configurationError)
        (fun o => (infer_kernel_cpu ⟨.scalar (fun _ _ => 1), (fun _ => 0), 1, 1, 1, 1, 1, 1⟩
          (fun f _ s j => f (j * s)) o).out)
        (fun _ => 7)
        = infer_with_validation (some FilError.configurationError) (fun o => o)
            (fun _ => 7) :=
  c8_error_before_rows (some FilError.configurationError)
    (fun o => (infer_kernel_cpu ⟨.scalar (fun _ _ => 1), (fun _ => 0), 1, 1, 1, 1, 1, 1⟩
      (fun f _ s j => f (j * s)) o).out)
    (fun o => o) (fun _ => 7) FilError.configurationError rfl

theorem phase1_zero_groves (p : KernelArgs) (hng : numGrove p = 0) :
    phase1 p = fun _ => 0 := by
  unfold phase1 taskCount
  rw [hng, Nat.zero_mul]
  rfl

/-- Claim C7: for scalar-leaf forests, classes are assigned round-robin by tree index:
the inner phase-1 loop adds the scalar leaf value of tree `t` into workspace cell
(row, t % num_outputs, grove), so a valid cell (row, c, g) accumulates exactly the leaf
values of the grove-`g` trees whose index is congruent to `c` modulo `num_outputs`. -/
theorem c7_round_robin (p : KernelArgs) (eval : ℕ → (ℕ → ℚ) → ℚ) (w : ℕ → ℚ)
    (row c g t : ℕ) (hL : p.leaf = .scalar eval) (hcs : 0 < p.chunk_size)
    (hrow : row < p.row_count) (hc : c < p.num_outputs) (hg : g < numGrove p) :
    treeStep p g row w t
        = accum w (cellIdx p.num_outputs (numGrove p) row (t % p.num_outputs) g)
            (eval t (rowData p.input p.col_count row)) ∧
      phase1 p (cellIdx p.num_outputs (numGrove p) row c g)
        = (((groveTrees p g).filter (fun x => decide (x % p.num_outputs = c))).map
            (fun x => eval x (rowData p.input p.col_count row))).sum := by
  constructor
  · simp only [treeStep, hL]
  · exact phase1_cell_scalar p eval hL hcs row c g hrow hc hg

/-- Witness for claim C7: a 2-tree, 2-output, 1-row forest with unit grove and chunk
size; tree 1's value goes to class `1 % 2 = 1`, and cell (0, 0, 0) holds tree 0's
leaf value 1. -/
theorem c7_round_robin_witness :
    (treeStep ⟨.scalar (fun t _ => if t = 0 then 1 else 2), (fun _ => 0), 1, 1, 2, 1, 1, 2⟩
        0 0 (fun _ => 0) 1
      = accum (fun _ => 0)
          (cellIdx 2 (numGrove ⟨.scalar (fun t _ => if t = 0 then 1 else 2),
            (fun _ => 0), 1, 1, 2, 1, 1, 2⟩) 0 (1 % 2) 0)
          ((fun t _ => if t = 0 then (1 : ℚ) else 2) 1
            (rowData (fun _ => 0) 1 0)) ∧
      phase1 ⟨.scalar (fun t _ => if t = 0 then 1 else 2), (fun _ => 0), 1, 1, 2, 1, 1, 2⟩
          (cellIdx 2 (numGrove ⟨.scalar (fun t _ => if t = 0 then 1 else 2),
            (fun _ => 0), 1, 1, 2, 1, 1, 2⟩) 0 0 0)
        = (((groveTrees ⟨.scalar (fun t _ => if t = 0 then 1 else 2),
              (fun _ => 0), 1, 1, 2, 1, 1, 2⟩ 0).filter
            (fun x => decide (x % 2 = 0))).map
            (fun x => (fun t _ => if t = 0 then (1 : ℚ) else 2) x
              (rowData (fun _ => 0) 1 0))).sum) ∧
      phase1 ⟨.scalar (fun t _ => if t = 0 then 1 else 2), (fun _ => 0), 1, 1, 2, 1, 1, 2⟩
          (cellIdx 2 2 0 0 0) = 1 :=
  ⟨c7_round_robin ⟨.scalar (fun t _ => if t = 0 then 1 else 2), (fun _ => 0), 1, 1, 2, 1, 1, 2⟩
      (fun t _ => if t = 0 then 1 else 2) (fun _ => 0) 0 0 0 1
      rfl (by decide) (by decide) (by decide) (by decide),
    by simp [phase1, taskCount, numGrove, numChunk, ceildiv, taskStep, taskRows, taskTrees,
      chunkRows, groveTrees, chunkOf, groveOf, treeStep, accum, wset, cellIdx, rowData,
      List.range_succ, List.range'_succ, List.range']⟩

/-- Claim C6: the postprocessor is invoked exactly `row_count` times (once per row);
each invocation passes exactly `num_outputs` as its output-count argument; and each
entry of the `row_count * num_outputs` output region is overwritten with a value
independent of the output buffer's prior contents. -/
theorem c6_postproc_calls (p : KernelArgs) (pp : PostprocFn) (out0 : ℕ → ℚ)
    (r j : ℕ) (hr : r < p.row_count) (hj : j < p.num_outputs) :
    (infer_kernel_cpu p pp out0).calls.length = p.row_count ∧
      ((infer_kernel_cpu p pp out0).calls[r]?).map PPCall.out_count
          = some p.num_outputs ∧
      (infer_kernel_cpu p pp out0).out (r * p.num_outputs + j)
        = pp (callAt p.num_outputs (numGrove p) (phase1 p) r).vals
            p.num_outputs (numGrove p) j := by
  unfold infer_kernel_cpu
  refine ⟨phase2_calls_length _ _ _ _ _ _, ?_, ?_⟩
  · rw [phase2_calls_get pp p.num_outputs (numGrove p) p.row_count (phase1 p) out0 r hr]
    rfl
  · exact phase2_out_apply pp p.num_outputs (numGrove p) (phase1 p) out0 r j hj
      p.row_count hr

/-- Claim C10: each postprocessor invocation passes
`num_grove = ceildiv(tree_count, grove_size)` as its fourth argument, and the per-class
aggregates lie at stride `num_grove` in its first argument: entry `c * num_grove` is the
reduced aggregate — the sum of that class's workspace cells across all groves — so what
is handed to postprocessing varies with the chosen `grove_size`. -/
theorem c10_postproc_stride (p : KernelArgs) (pp : PostprocFn) (out0 : ℕ → ℚ)
    (r : ℕ) (hr : r < p.row_count) :
    ∃ call, (infer_kernel_cpu p pp out0).calls[r]? = some call ∧
      call.stride = ceildiv p.tree_count p.grove_size ∧
      ∀ c < p.num_outputs,
        call.vals (c * numGrove p)
          = ((List.range (numGrove p)).map
              (fun g => phase1 p (cellIdx p.num_outputs (numGrove p) r c g))).sum := by
  unfold infer_kernel_cpu
  rw [phase2_calls_get pp p.num_outputs (numGrove p) p.row_count (phase1 p) out0 r hr]
  refine ⟨_, rfl, rfl, ?_⟩
  intro c hc
  rcases Nat.eq_zero_or_pos (numGrove p) with hng | hng
  · have hz : ∀ i, phase1 p i = 0 := fun i => by rw [phase1_zero_groves p hng]
    rw [hng]
    show phase2w p.num_outputs 0 (phase1 p) (r + 1)
        (r * p.num_outputs * 0 + c * 0) = _
    rw [phase2w_zero p.num_outputs 0 (phase1 p) hz (r + 1)]
    simp
  · exact callAt_vals_strided p.num_outputs (numGrove p) hng (phase1 p) r c hc

/-- Claim C1: for a scalar-leaf, single-output ensemble, the pre-postprocessing
aggregate handed to the postprocessor for a row — entry 0 of its first argument, after
the grove reduction — equals the arithmetic sum of the per-tree leaf values for that
row. -/
theorem c1_scalar_accumulation (p : KernelArgs) (eval : ℕ → (ℕ → ℚ) → ℚ)
    (pp : PostprocFn) (out0 : ℕ → ℚ) (r : ℕ)
    (hL : p.leaf = .scalar eval) (hno1 : p.num_outputs = 1)
    (hcs : 0 < p.chunk_size) (hgs : 0 < p.grove_size) (hr : r < p.row_count) :
    ∃ call, (infer_kernel_cpu p pp out0).calls[r]? = some call ∧
      call.vals 0 = ((List.range p.tree_count).map
        (fun t => eval t (rowData p.input p.col_count r))).sum := by
  unfold infer_kernel_cpu
  rw [phase2_calls_get pp p.num_outputs (numGrove p) p.row_count (phase1 p) out0 r hr]
  refine ⟨_, rfl, ?_⟩
  rcases Nat.eq_zero_or_pos p.tree_count with htc | htc
  · have hng : numGrove p = 0 := numGrove_zero p htc
    have hz : ∀ i, phase1 p i = 0 := fun i => by rw [phase1_zero_groves p hng]
    show phase2w p.num_outputs (numGrove p) (phase1 p) (r + 1)
        (r * p.num_outputs * numGrove p + 0) = _
    rw [phase2w_zero p.num_outputs (numGrove p) (phase1 p) hz (r + 1), htc]
    simp
  · have hng : 0 < numGrove p := ceildiv_pos p.tree_count p.grove_size hgs htc
    have h1 : (callAt p.num_outputs (numGrove p) (phase1 p) r).vals (0 * numGrove p)
        = ((List.range (numGrove p)).map
            (fun g => phase1 p (cellIdx p.num_outputs (numGrove p) r 0 g))).sum :=
      callAt_vals_strided p.num_outputs (numGrove p) hng (phase1 p) r 0 (by omega)
    rw [Nat.zero_mul] at h1
    have h2 := grove_sum_scalar p eval hL hcs hgs r 0 hr (by omega)
    rw [h1, h2, hno1]
    simp [Nat.mod_one]

/-- Claim C2: for a vector-leaf forest, the pre-postprocessing aggregate for (row, c) —
entry `c * num_grove` of the postprocessor's first argument — equals the sum over all
trees of `vector_output_p[leaf_index(tree, row) * num_outputs + c]`. -/
theorem c2_vector_accumulation (p : KernelArgs) (eval : ℕ → (ℕ → ℚ) → ℕ)
    (vop : ℕ → ℚ) (pp : PostprocFn) (out0 : ℕ → ℚ) (r c : ℕ)
    (hL : p.leaf = .vector eval vop) (hcs : 0 < p.chunk_size) (hgs : 0 < p.grove_size)
    (hr : r < p.row_count) (hc : c < p.num_outputs) :
    ∃ call, (infer_kernel_cpu p pp out0).calls[r]? = some call ∧
      call.vals (c * numGrove p)
        = ((List.range p.tree_count).map
            (fun t => vop (eval t (rowData p.input p.col_count r)
              * p.num_outputs + c))).sum := by
  unfold infer_kernel_cpu
  rw [phase2_calls_get pp p.num_outputs (numGrove p) p.row_count (phase1 p) out0 r hr]
  refine ⟨_, rfl, ?_⟩
  rcases Nat.eq_zero_or_pos p.tree_count with htc | htc
  · have hng : numGrove p = 0 := numGrove_zero p htc
    have hz : ∀ i, phase1 p i = 0 := fun i => by rw [phase1_zero_groves p hng]
    rw [hng]
    show phase2w p.num_outputs 0 (phase1 p) (r + 1)
        (r * p.num_outputs * 0 + c * 0) = _
    rw [phase2w_zero p.num_outputs 0 (phase1 p) hz (r + 1), htc]
    simp
  · have hng : 0 < numGrove p := ceildiv_pos p.tree_count p.grove_size hgs htc
    have h1 : (callAt p.num_outputs (numGrove p) (phase1 p) r).vals (c * numGrove p)
        = ((List.range (numGrove p)).map
            (fun g => phase1 p (cellIdx p.num_outputs (numGrove p) r c g))).sum :=
      callAt_vals_strided p.num_outputs (numGrove p) hng (phase1 p) r c hc
    have h2 := grove_sum_vector p eval vop hL hcs hgs r c hr hc
    rw [h1, h2]

/-- Partition invariance of the strided aggregates: two kernel parameterisations that
differ only in `chunk_size` and `grove_size` (both positive) hand the postprocessor the
same per-class aggregates at the stride positions. -/
theorem strided_aggregate_invariant (p1 p2 : KernelArgs)
    (hleaf : p1.leaf = p2.leaf) (hinput : p1.input = p2.input)
    (hrc : p1.row_count = p2.row_count) (hcc : p1.col_count = p2.col_count)
    (hno : p1.num_outputs = p2.num_outputs) (htc : p1.tree_count = p2.tree_count)
    (hcs1 : 0 < p1.chunk_size) (hgs1 : 0 < p1.grove_size)
    (hcs2 : 0 < p2.chunk_size) (hgs2 : 0 < p2.grove_size)
    (r c : ℕ) (hr : r < p1.row_count) (hc : c < p1.num_outputs) :
    (callAt p1.num_outputs (numGrove p1) (phase1 p1) r).vals (c * numGrove p1)
      = (callAt p2.num_outputs (numGrove p2) (phase1 p2) r).vals (c * numGrove p2) := by
  rcases Nat.eq_zero_or_pos p1.tree_count with h0 | h0
  · have hng1 : numGrove p1 = 0 := numGrove_zero p1 h0
    have hng2 : numGrove p2 = 0 := numGrove_zero p2 (htc ▸ h0)
    have hz1 : ∀ i, phase1 p1 i = 0 := fun i => by rw [phase1_zero_groves p1 hng1]
    have hz2 : ∀ i, phase1 p2 i = 0 := fun i => by rw [phase1_zero_groves p2 hng2]
    rw [hng1, hng2]
    show phase2w p1.num_outputs 0 (phase1 p1) (r + 1) (r * p1.num_outputs * 0 + c * 0)
        = phase2w p2.num_outputs 0 (phase1 p2) (r + 1) (r * p2.num_outputs * 0 + c * 0)
    rw [phase2w_zero p1.num_outputs 0 (phase1 p1) hz1 (r + 1),
      phase2w_zero p2.num_outputs 0 (phase1 p2) hz2 (r + 1)]
  · have hng1 : 0 < numGrove p1 := ceildiv_pos p1.tree_count p1.grove_size hgs1 h0
    have hng2 : 0 < numGrove p2 := ceildiv_pos p2.tree_count p2.grove_size hgs2 (htc ▸ h0)
    rw [callAt_vals_strided p1.num_outputs (numGrove p1) hng1 (phase1 p1) r c hc,
      callAt_vals_strided p2.num_outputs (numGrove p2) hng2 (phase1 p2) r c (hno ▸ hc)]
    rcases hL1 : p1.leaf with eval | ⟨eval, vop⟩
    · have hL2 : p2.leaf = .scalar eval := hleaf.symm.trans hL1
      have s1 : ((List.range (numGrove p1)).map (fun g =>
            phase1 p1 (r * p1.num_outputs * numGrove p1 + c * numGrove p1 + g))).sum
          = (((List.range p1.tree_count).filter
                (fun t => decide (t % p1.num_outputs = c))).map
              (fun t => eval t (rowData p1.input p1.col_count r))).sum :=
        grove_sum_scalar p1 eval hL1 hcs1 hgs1 r c hr hc
      have s2 : ((List.range (numGrove p2)).map (fun g =>
            phase1 p2 (r * p2.num_outputs * numGrove p2 + c * numGrove p2 + g))).sum
          = (((List.range p2.tree_count).filter
                (fun t => decide (t % p2.num_outputs = c))).map
              (fun t => eval t (rowData p2.input p2.col_count r))).sum :=
        grove_sum_scalar p2 eval hL2 hcs2 hgs2 r c (hrc ▸ hr) (hno ▸ hc)
      rw [s1, s2, htc, hno, hinput, hcc]
    · have hL2 : p2.leaf = .vector eval vop := hleaf.symm.trans hL1
      have s1 : ((List.range (numGrove p1)).map (fun g =>
            phase1 p1 (r * p1.num_outputs * numGrove p1 + c * numGrove p1 + g))).sum
          = ((List.range p1.tree_count).map
              (fun t => vop (eval t (rowData p1.input p1.col_count r)
                * p1.num_outputs + c))).sum :=
        grove_sum_vector p1 eval vop hL1 hcs1 hgs1 r c hr hc
      have s2 : ((List.range (numGrove p2)).map (fun g =>
            phase1 p2 (r * p2.num_outputs * numGrove p2 + c * numGrove p2 + g))).sum
          = ((List.range p2.tree_count).map
              (fun t => vop (eval t (rowData p2.input p2.col_count r)
                * p2.num_outputs + c))).sum :=
        grove_sum_vector p2 eval vop hL2 hcs2 hgs2 r c (hrc ▸ hr) (hno ▸ hc)
      rw [s1, s2, htc, hno, hinput, hcc]

/-- Claim C3: under exact arithmetic, the output of `infer_kernel_cpu` is independent of
the `chunk_size` and `grove_size` parameters (any positive values, so in particular a
single-task configuration with `chunk_size ≥ row_count` and `grove_size ≥ tree_count`
agrees with arbitrary smaller positive sizes), provided the postprocessor depends only
on the `num_outputs` per-class aggregates found at multiples of its stride argument. -/
theorem c3_partition_invariance (leaf : LeafModel) (input : ℕ → ℚ)
    (rc cc no tc cs1 gs1 cs2 gs2 : ℕ) (pp : PostprocFn) (out0 : ℕ → ℚ) (i : ℕ)
    (hcs1 : 0 < cs1) (hgs1 : 0 < gs1) (hcs2 : 0 < cs2) (hgs2 : 0 < gs2)
    (hpp : ∀ (f1 f2 : ℕ → ℚ) (s1 s2 : ℕ),
      (∀ c < no, f1 (c * s1) = f2 (c * s2)) →
      ∀ j < no, pp f1 no s1 j = pp f2 no s2 j)
    (hi : i < rc * no) :
    (infer_kernel_cpu ⟨leaf, input, rc, cc, no, cs1, gs1, tc⟩ pp out0).out i
      = (infer_kernel_cpu ⟨leaf, input, rc, cc, no, cs2, gs2, tc⟩ pp out0).out i := by
  have hno : 0 < no := by
    rcases Nat.eq_zero_or_pos no with h | h
    · rw [h, Nat.mul_zero] at hi
      omega
    · exact h
  obtain ⟨r, j, hj, hr, hidx⟩ : ∃ r j, j < no ∧ r < rc ∧ i = r * no + j := by
    refine ⟨i / no, i % no, Nat.mod_lt i hno, (Nat.div_lt_iff_lt_mul hno).mpr hi, ?_⟩
    have h1 := Nat.div_add_mod i no
    have h2 : no * (i / no) = i / no * no := Nat.mul_comm _ _
    omega
  subst hidx
  show (phase2 pp no (numGrove ⟨leaf, input, rc, cc, no, cs1, gs1, tc⟩) rc
      (phase1 ⟨leaf, input, rc, cc, no, cs1, gs1, tc⟩) out0).out (r * no + j)
    = (phase2 pp no (numGrove ⟨leaf, input, rc, cc, no, cs2, gs2, tc⟩) rc
      (phase1 ⟨leaf, input, rc, cc, no, cs2, gs2, tc⟩) out0).out (r * no + j)
  rw [phase2_out_apply pp no (numGrove ⟨leaf, input, rc, cc, no, cs1, gs1, tc⟩)
      (phase1 ⟨leaf, input, rc, cc, no, cs1, gs1, tc⟩) out0 r j hj rc hr,
    phase2_out_apply pp no (numGrove ⟨leaf, input, rc, cc, no, cs2, gs2, tc⟩)
      (phase1 ⟨leaf, input, rc, cc, no, cs2, gs2, tc⟩) out0 r j hj rc hr]
  exact hpp _ _ _ _
    (fun c hc => strided_aggregate_invariant
      ⟨leaf, input, rc, cc, no, cs1, gs1, tc⟩ ⟨leaf, input, rc, cc, no, cs2, gs2, tc⟩
      rfl rfl rfl rfl rfl rfl hcs1 hgs1 hcs2 hgs2 r c hr hc) j hj

/-- Witness for claim C1 (spec Scenario A): 2 trees, 1 output, leaves `1` and `-1/2`;
the aggregate handed to the postprocessor for row 0 is the sum of the two leaf values,
and that sum is `1/2`. -/
theorem c1_scalar_accumulation_witness :
    (∃ call, (infer_kernel_cpu
        ⟨.scalar (fun t _ => if t = 0 then 1 else -(1/2)), (fun _ => 0), 1, 1, 1, 1, 1, 2⟩
        (fun f _ s j => f (j * s)) (fun _ => 0)).calls[0]? = some call ∧
      call.vals 0 = ((List.range 2).map
        (fun t => (fun t _ => if t = 0 then (1 : ℚ) else -(1/2)) t
          (rowData (fun _ => 0) 1 0))).sum) ∧
      ((List.range 2).map
        (fun t => (fun t _ => if t = 0 then (1 : ℚ) else -(1/2)) t
          (rowData (fun _ => 0) 1 0))).sum = 1/2 :=
  ⟨c1_scalar_accumulation
      ⟨.scalar (fun t _ => if t = 0 then 1 else -(1/2)), (fun _ => 0), 1, 1, 1, 1, 1, 2⟩
      (fun t _ => if t = 0 then 1 else -(1/2)) (fun f _ s j => f (j * s)) (fun _ => 0) 0
      rfl rfl (by decide) (by decide) (by decide),
    by norm_num [List.range_succ]⟩

/-- Witness for claim C2 (spec Scenario B): one tree with a 3-class vector leaf at
vector-output index 0, table row `[1/10, 1/5, 7/10]`; the class-2 aggregate is the
table entry `7/10`. -/
theorem c2_vector_accumulation_witness :
    (∃ call, (infer_kernel_cpu
        ⟨.vector (fun _ _ => 0)
          (fun k => if k = 0 then 1/10 else if k = 1 then 1/5 else if k = 2 then 7/10 else 0),
          (fun _ => 0), 1, 1, 3, 1, 1, 1⟩
        (fun f _ s j => f (j * s)) (fun _ => 0)).calls[0]? = some call ∧
      call.vals (2 * numGrove
          ⟨.vector (fun _ _ => 0)
            (fun k => if k = 0 then 1/10 else if k = 1 then 1/5 else if k = 2 then 7/10 else 0),
            (fun _ => 0), 1, 1, 3, 1, 1, 1⟩)
        = ((List.range 1).map
            (fun t => (fun k => if k = 0 then (1 : ℚ)/10 else if k = 1 then 1/5
                else if k = 2 then 7/10 else 0)
              ((fun _ _ => 0) t (rowData (fun _ => 0) 1 0) * 3 + 2))).sum) ∧
      ((List.range 1).map
        (fun t => (fun k => if k = 0 then (1 : ℚ)/10 else if k = 1 then 1/5
            else if k = 2 then 7/10 else 0)
          ((fun _ _ => 0) t (rowData (fun _ => 0) 1 0) * 3 + 2))).sum = 7/10 :=
  ⟨c2_vector_accumulation
      ⟨.vector (fun _ _ => 0)
        (fun k => if k = 0 then 1/10 else if k = 1 then 1/5 else if k = 2 then 7/10 else 0),
        (fun _ => 0), 1, 1, 3, 1, 1, 1⟩
      (fun _ _ => 0)
      (fun k => if k = 0 then 1/10 else if k = 1 then 1/5 else if k = 2 then 7/10 else 0)
      (fun f _ s j => f (j * s)) (fun _ => 0) 0 2
      rfl (by decide) (by decide) (by decide) (by decide),
    by norm_num [List.range_succ]⟩

/-- Witness for claim C3 (spec Scenario C): on the 2-tree, 2-row scenario-A forest, a
single-task configuration (`chunk_size = grove_size = 2`) and the finest configuration
(`chunk_size = grove_size = 1`) produce the same output entry for row 0 under the
stride-reading postprocessor. -/
theorem c3_partition_invariance_witness :
    (infer_kernel_cpu
        ⟨.scalar (fun t _ => if t = 0 then 1 else -(1/2)), (fun _ => 0), 2, 1, 1, 2, 2, 2⟩
        (fun f _ s j => f (j * s)) (fun _ => 0)).out 0
      = (infer_kernel_cpu
        ⟨.scalar (fun t _ => if t = 0 then 1 else -(1/2)), (fun _ => 0), 2, 1, 1, 1, 1, 2⟩
        (fun f _ s j => f (j * s)) (fun _ => 0)).out 0 :=
  c3_partition_invariance (.scalar (fun t _ => if t = 0 then 1 else -(1/2)))
    (fun _ => 0) 2 1 1 2 2 2 1 1 (fun f _ s j => f (j * s)) (fun _ => 0) 0
    (by decide) (by decide) (by decide) (by decide)
    (fun f1 f2 s1 s2 h j hj => h j hj) (by decide)

/-- Witness for claim C6: on the scenario-A forest the kernel makes exactly one
postprocessor call, that call's output-count argument is 1, and output entry 0 is the
postprocessed row-0 aggregate, independent of the initial output buffer contents. -/
theorem c6_postproc_calls_witness :
    (infer_kernel_cpu
        ⟨.scalar (fun t _ => if t = 0 then 1 else -(1/2)), (fun _ => 0), 1, 1, 1, 1, 1, 2⟩
        (fun f _ s j => f (j * s)) (fun _ => 9)).calls.length = 1 ∧
      ((infer_kernel_cpu
        ⟨.scalar (fun t _ => if t = 0 then 1 else -(1/2)), (fun _ => 0), 1, 1, 1, 1, 1, 2⟩
        (fun f _ s j => f (j * s)) (fun _ => 9)).calls[0]?).map PPCall.out_count
          = some 1 ∧
      (infer_kernel_cpu
        ⟨.scalar (fun t _ => if t = 0 then 1 else -(1/2)), (fun _ => 0), 1, 1, 1, 1, 1, 2⟩
        (fun f _ s j => f (j * s)) (fun _ => 9)).out (0 * 1 + 0)
        = (fun f _ s j => f (j * s))
            (callAt 1 (numGrove
              ⟨.scalar (fun t _ => if t = 0 then 1 else -(1/2)), (fun _ => 0), 1, 1, 1, 1, 1, 2⟩)
              (phase1
                ⟨.scalar (fun t _ => if t = 0 then 1 else -(1/2)), (fun _ => 0), 1, 1, 1, 1, 1, 2⟩)
              0).vals 1
            (numGrove
              ⟨.scalar (fun t _ => if t = 0 then 1 else -(1/2)), (fun _ => 0), 1, 1, 1, 1, 1, 2⟩)
            0 :=
  c6_postproc_calls
    ⟨.scalar (fun t _ => if t = 0 then 1 else -(1/2)), (fun _ => 0), 1, 1, 1, 1, 1, 2⟩
    (fun f _ s j => f (j * s)) (fun _ => 9) 0 0 (by decide) (by decide)

/-- Witness for claim C10: on the scenario-A forest with `grove_size = 1` the
postprocessor's fourth argument for row 0 is `ceildiv 2 1 = 2`. -/
theorem c10_postproc_stride_witness :
    ∃ call, (infer_kernel_cpu
        ⟨.scalar (fun t _ => if t = 0 then 1 else -(1/2)), (fun _ => 0), 1, 1, 1, 1, 1, 2⟩
        (fun f _ s j => f (j * s)) (fun _ => 0)).calls[0]? = some call ∧
      call.stride = 2 := by
  obtain ⟨call, h1, h2, _⟩ := c10_postproc_stride
    ⟨.scalar (fun t _ => if t = 0 then 1 else -(1/2)), (fun _ => 0), 1, 1, 1, 1, 1, 2⟩
    (fun f _ s j => f (j * s)) (fun _ => 0) 0 (by decide)
  exact ⟨call, h1, h2.trans (by decide)⟩

end FIL
